import Mathlib

/-!
Verification of the notewise RAG assistant against its specification.

The development shallowly embeds the TypeScript sources:
* `src/lib/rag/embeddings.ts` (`generateEmbedding`, `cosineSimilarity`),
* `src/lib/rag/vectorStore.ts` (`searchSimilar`),
* the agent tools module (`searchNotesTool`, `findGapsTool`) and the inline
  tools of `src/app/api/chat/route.ts`,
* the embeddings route (`DELETE` by source),
* the upload route (`chunkText` in both of its variants, and the chunk
  insertion loop of `POST`),
* the orchestrator loop configuration (`streamText` with `maxSteps: 5`),
  modelled from the specification since the loop body lives in the external
  `ai` library.

Texts are embedded as `List Char`.  The external embedding model and the
pgvector cosine-distance operator are treated as parameters (`dist`
functions); machine reals of the TypeScript runtime are idealised as `ℝ`
where square roots matter (`cosineSimilarity`) and as `ℚ` where only field
arithmetic and comparisons matter (similarity scores).
-/

namespace Notewise

set_option maxRecDepth 40000

/-! ## Embedding client: `src/lib/rag/embeddings.ts` -/

/-- Shallow embedding of `cosineSimilarity` from `embeddings.ts`.  The
`Math.sqrt` primitive of the runtime is a parameter `sqrt`; the element type
is any field with decidable equality (instantiated at `ℝ` with `Real.sqrt`
in the theorems).  Mirrors the source line by line: dimension guard with the
same message, dot product and the two squared norms accumulated over the
index range, the zero-denominator guard returning `0`, and the final
quotient. -/
def cosineSimilarity {K : Type} [Field K] [DecidableEq K] (sqrt : K → K)
    (vec1 vec2 : List K) : Except String K :=
  if vec1.length ≠ vec2.length then
    .error ("Vector dimensions must match: " ++ toString vec1.length
      ++ " vs " ++ toString vec2.length)
  else
    let dotProduct := ((vec1.zip vec2).map (fun p => p.1 * p.2)).sum
    let norm1 := (vec1.map (fun x => x * x)).sum
    let norm2 := (vec2.map (fun x => x * x)).sum
    let denominator := sqrt norm1 * sqrt norm2
    if denominator = 0 then .ok 0
    else .ok (dotProduct / denominator)

/-- Shallow embedding of `generateEmbedding` from `embeddings.ts`.  The
result of the external `doEmbed` call is the input: `none` models a missing
`result.embeddings` field, `some []` models an empty embeddings array (both
rejected by the first guard, which also covers `!result.embeddings[0]`),
and otherwise the first vector is checked to have dimension 1536 on this
very call. -/
def generateEmbedding (embedResult : Option (List (List ℚ))) :
    Except String (List ℚ) :=
  match embedResult with
  | none => .error "Failed to generate embedding"
  | some [] => .error "Failed to generate embedding"
  | some (embedding :: _) =>
    if embedding.length ≠ 1536 then
      .error ("Expected 1536-dimensional embedding, got "
        ++ toString embedding.length)
    else
      .ok embedding

/-- Dot products over zipped lists are symmetric. -/
theorem dot_comm {K : Type} [CommRing K] :
    ∀ (v1 v2 : List K),
      ((v1.zip v2).map (fun p => p.1 * p.2)).sum
        = ((v2.zip v1).map (fun p => p.1 * p.2)).sum := by
  intro v1
  induction v1 with
  | nil => intro v2; cases v2 <;> simp
  | cons x xs ih =>
    intro v2
    cases v2 with
    | nil => simp
    | cons y ys => simp [ih ys, mul_comm]

/-- Zipping a list with itself and multiplying componentwise gives the list
of squares. -/
theorem zip_self_mul {K : Type} [Mul K] :
    ∀ (v : List K),
      ((v.zip v).map (fun p => p.1 * p.2)) = v.map (fun x => x * x) := by
  intro v
  induction v with
  | nil => simp
  | cons x xs ih => simp [ih]

/-- Evaluation of `cosineSimilarity` once the dimension guard has passed. -/
theorem cosineSimilarity_eq_of_len {K : Type} [Field K] [DecidableEq K]
    (sqrt : K → K) (v1 v2 : List K) (h : v1.length = v2.length) :
    cosineSimilarity sqrt v1 v2 =
      (if sqrt ((v1.map (fun x => x * x)).sum)
            * sqrt ((v2.map (fun x => x * x)).sum) = 0 then .ok 0
       else .ok (((v1.zip v2).map (fun p => p.1 * p.2)).sum /
          (sqrt ((v1.map (fun x => x * x)).sum)
            * sqrt ((v2.map (fun x => x * x)).sum)))) := by
  simp [cosineSimilarity, h]

/-- Sums of squares of reals are nonnegative. -/
theorem sum_sq_nonneg (v : List ℝ) : 0 ≤ (v.map (fun x => x * x)).sum := by
  apply List.sum_nonneg
  intro x hx
  rcases List.mem_map.mp hx with ⟨y, -, rfl⟩
  exact mul_self_nonneg y

/-- A vector with a nonzero entry has positive sum of squares. -/
theorem sum_sq_pos (v : List ℝ) (h : ∃ x ∈ v, x ≠ 0) :
    0 < (v.map (fun x => x * x)).sum := by
  rcases h with ⟨x, hx, hx0⟩
  have hmem : x * x ∈ v.map (fun y => y * y) := List.mem_map_of_mem _ hx
  have hle : x * x ≤ (v.map (fun y => y * y)).sum :=
    List.single_le_sum (fun b hb => by
      rcases List.mem_map.mp hb with ⟨y, -, rfl⟩
      exact mul_self_nonneg y) _ hmem
  exact lt_of_lt_of_le (mul_self_pos.mpr hx0) hle

/-- An all-zero vector has zero sum of squares. -/
theorem sum_sq_zero (v : List ℝ) (h : ∀ x ∈ v, x = 0) :
    (v.map (fun x => x * x)).sum = 0 := by
  apply List.sum_eq_zero
  intro x hx
  rcases List.mem_map.mp hx with ⟨y, hy, rfl⟩
  rw [h y hy, mul_zero]

/-- C7: `cosineSimilarity` fails with an error exactly when the two vectors
have different lengths; for equal-length vectors it is symmetric; applied to
a nonzero vector and itself it returns exactly 1; and for equal-length
inputs where either vector is all zeros it returns 0 instead of an error or
an undefined quotient. -/
theorem C7_cosineSimilarity_spec (v1 v2 : List ℝ) :
    ((∃ e, cosineSimilarity Real.sqrt v1 v2 = .error e) ↔
        v1.length ≠ v2.length)
    ∧ (v1.length = v2.length →
        cosineSimilarity Real.sqrt v1 v2 = cosineSimilarity Real.sqrt v2 v1)
    ∧ ((∃ x ∈ v1, x ≠ 0) → cosineSimilarity Real.sqrt v1 v1 = .ok 1)
    ∧ (v1.length = v2.length →
        ((∀ x ∈ v1, x = 0) ∨ (∀ x ∈ v2, x = 0)) →
        cosineSimilarity Real.sqrt v1 v2 = .ok 0) := by
  refine ⟨?_, ?_, ?_, ?_⟩
  · by_cases h : v1.length = v2.length
    · rw [cosineSimilarity_eq_of_len _ _ _ h]
      constructor
      · rintro ⟨e, he⟩
        by_cases hd : Real.sqrt ((v1.map (fun x => x * x)).sum)
            * Real.sqrt ((v2.map (fun x => x * x)).sum) = 0 <;>
          simp [hd] at he
      · intro hne; exact absurd h hne
    · simp only [cosineSimilarity, if_pos h]
      exact ⟨fun _ => h, fun _ => ⟨_, rfl⟩⟩
  · intro h
    rw [cosineSimilarity_eq_of_len _ _ _ h, cosineSimilarity_eq_of_len _ _ _ h.symm]
    rw [dot_comm, mul_comm (Real.sqrt ((v1.map (fun x => x * x)).sum))]
  · intro hx
    have hN : 0 < (v1.map (fun x => x * x)).sum := sum_sq_pos v1 hx
    rw [cosineSimilarity_eq_of_len _ _ _ rfl]
    rw [Real.mul_self_sqrt hN.le, if_neg hN.ne', zip_self_mul, div_self hN.ne']
  · intro h hz
    rw [cosineSimilarity_eq_of_len _ _ _ h]
    rcases hz with hz | hz
    · rw [sum_sq_zero v1 hz, Real.sqrt_zero, zero_mul, if_pos rfl]
    · rw [sum_sq_zero v2 hz, Real.sqrt_zero, mul_zero, if_pos rfl]

/-- Witness for C7 at the concrete nonzero vector `[1]`. -/
theorem C7_cosineSimilarity_witness :
    cosineSimilarity Real.sqrt [(1 : ℝ)] [1] = .ok 1 :=
  (C7_cosineSimilarity_spec [(1 : ℝ)] [1]).2.2.1 ⟨1, by simp, one_ne_zero⟩

/-- C8: `generateEmbedding` either returns a vector of exactly 1536 entries
or fails, and it fails precisely when the external call produced no vectors
(missing or empty embeddings array) or a first vector whose dimension is
not 1536; the check runs on the result of every call. -/
theorem C8_generateEmbedding_spec (res : Option (List (List ℚ))) :
    (∀ v, generateEmbedding res = .ok v → v.length = 1536)
    ∧ ((∃ e, generateEmbedding res = .error e) ↔
        res = none ∨ res = some [] ∨
          ∃ v vs, res = some (v :: vs) ∧ v.length ≠ 1536) := by
  constructor
  · intro v hv
    match res with
    | none => simp [generateEmbedding] at hv
    | some [] => simp [generateEmbedding] at hv
    | some (e :: es) =>
      by_cases h : e.length = 1536
      · simp [generateEmbedding, h] at hv
        rw [← hv, h]
      · simp [generateEmbedding, h] at hv
  · match res with
    | none => simp [generateEmbedding]
    | some [] => simp [generateEmbedding]
    | some (e :: es) =>
      by_cases h : e.length = 1536
      · simp [generateEmbedding, h]
      · simp [generateEmbedding, h]

/-! ## Vector store: `src/lib/rag/vectorStore.ts`

The `embeddings` table (`src/lib/db/schema.ts`) is modelled as a list of
rows.  The pgvector cosine-distance operator applied to the embedding of
the query is external, so it enters as a parameter `dist : EmbRow → ℚ`;
`ORDER BY` with `LIMIT` is modelled as a stable sort followed by `take`. -/

/-- Metadata blob stored in the `jsonb` column, as written by the upload
route: `source`, `fileName`, `uploadedAt`, `chunkIndex`, `totalChunks`. -/
structure ChunkMeta where
  source : Option String
  fileName : Option String
  uploadedAt : Option String
  chunkIndex : Option Nat
  totalChunks : Option Nat
deriving DecidableEq

/-- One row of the `embeddings` table. -/
structure EmbRow where
  id : Nat
  userId : String
  content : String
  metadata : Option ChunkMeta
deriving DecidableEq

/-- The `SimilarChunk` record returned by `searchSimilar`. -/
structure SimilarChunk where
  id : Nat
  content : String
  metadata : Option ChunkMeta
  similarity : ℚ
deriving DecidableEq

/-- Shallow embedding of `searchSimilar` from `vectorStore.ts`.  The
`if (userId)` guard keeps JavaScript truthiness: an absent or empty user id
applies no filter.  Rows are ordered by ascending cosine distance, limited
to `topK`, and mapped to similarity `max 0 (1 - distance / 2)`; the stored
distance returned by the database is always numeric in this model, so the
`0.5` fallback branch for a non-numeric distance is dead. -/
def searchSimilar (dist : EmbRow → ℚ) (rows : List EmbRow)
    (topK : Nat) (userId : Option String) : List SimilarChunk :=
  let filtered :=
    match userId with
    | some u =>
      if u ≠ "" then rows.filter (fun (r : EmbRow) => r.userId = u) else rows
    | none => rows
  let ordered := filtered.insertionSort (fun a b => dist a ≤ dist b)
  (ordered.take topK).map (fun (r : EmbRow) =>
    { id := r.id, content := r.content, metadata := r.metadata,
      similarity := max 0 (1 - dist r / 2) })

/-- JavaScript `a || b` on an optional string: an absent or empty string
falls through to the default. -/
def jsOr (a : Option String) (b : String) : String :=
  match a with
  | some s => if s = "" then b else s
  | none => b

/-- Source label resolution used by the tools:
`metadata?.source || metadata?.fileName || "unknown"`. -/
def resolveSource (m : Option ChunkMeta) : String :=
  match m with
  | none => "unknown"
  | some meta => jsOr meta.source (jsOr meta.fileName "unknown")

/-- One hit in the `searchNotes` tool response. -/
structure ToolSearchHit where
  content : String
  source : String
  similarity : ℚ
deriving DecidableEq

/-- The `searchNotes` tool response (success path). -/
structure SearchNotesResult where
  success : Bool
  results : List ToolSearchHit
  count : Nat
deriving DecidableEq

/-- Shallow embedding of the `execute` function of `searchNotesTool` from
the agent tools module.  It calls `searchSimilar(query, topK || 5)` with no
third argument, so no user id reaches the store query (`none` below), and
`topK || 5` keeps JavaScript truthiness (`0` falls back to 5). -/
def searchNotesToolExec (dist : EmbRow → ℚ) (rows : List EmbRow)
    (topK : Option Nat) : SearchNotesResult :=
  let k :=
    match topK with
    | some n => if n ≠ 0 then n else 5
    | none => 5
  let results := searchSimilar dist rows k none
  { success := true,
    results := results.map (fun c =>
      { content := c.content, source := resolveSource c.metadata,
        similarity := c.similarity }),
    count := results.length }

/-! ## Embeddings route: `DELETE /api/embeddings?source=` -/

/-- Response of the embeddings `DELETE` handler: the success JSON carries
`deletedCount`, `source` and `message`; the failure JSON carries only an
`error` string next to the HTTP status. -/
inductive DelResp where
  | ok (deletedCount : Nat) (source : String) (message : String)
  | err (status : Nat) (error : String)
deriving DecidableEq

/-- SQL `metadata->>'source'` on a row: `NULL` when the blob or the key is
absent. -/
def metaSource (r : EmbRow) : Option String :=
  r.metadata.bind (fun m => m.source)

/-- Shallow embedding of the `DELETE` handler of the embeddings route.  It
checks authentication, requires a `source` query parameter, then deletes
every row whose `metadata->>'source'` equals the parameter — with no filter
on `user_id` — and reports the number of deleted rows.  Returns the
response together with the table contents left behind. -/
def deleteEmbeddingsRoute (rows : List EmbRow) (authUserId : Option String)
    (source : Option String) : DelResp × List EmbRow :=
  match authUserId with
  | none => (.err 401 "Unauthorized", rows)
  | some u =>
    if u = "" then (.err 401 "Unauthorized", rows)
    else
      match source with
      | none => (.err 400 "Source parameter is required", rows)
      | some s =>
        if s = "" then (.err 400 "Source parameter is required", rows)
        else
          let deleted := rows.filter (fun r => metaSource r = some s)
          (.ok deleted.length s
            ("Deleted " ++ toString deleted.length ++ " chunk(s) for " ++ s),
           rows.filter (fun r => ¬ (metaSource r = some s)))

/-- Rows surviving the optional user filter of `searchSimilar` come from
the table. -/
theorem mem_of_mem_userFilter {rows : List EmbRow} {userId : Option String}
    {r : EmbRow}
    (h : r ∈ (match userId with
      | some u =>
        if u ≠ "" then rows.filter (fun (r : EmbRow) => r.userId = u) else rows
      | none => rows)) : r ∈ rows := by
  rcases userId with _ | u
  · exact h
  · by_cases hu : u = ""
    · simpa [hu] using h
    · simp only [ne_eq, hu, not_false_eq_true, if_true, List.mem_filter] at h
      exact h.1

/-- Every chunk produced by `searchSimilar` is the image of a table row,
with similarity computed from that row's distance. -/
theorem searchSimilar_mem_provenance (dist : EmbRow → ℚ) (rows : List EmbRow)
    (topK : Nat) (userId : Option String) :
    ∀ c ∈ searchSimilar dist rows topK userId,
      ∃ r ∈ rows, c = ⟨r.id, r.content, r.metadata, max 0 (1 - dist r / 2)⟩ := by
  intro c hc
  simp only [searchSimilar, List.mem_map] at hc
  rcases hc with ⟨r, hr, rfl⟩
  have h1 := (List.take_sublist _ _).mem hr
  have h2 := (List.perm_insertionSort (fun a b => dist a ≤ dist b) _).mem_iff.mp h1
  exact ⟨r, mem_of_mem_userFilter h2, rfl⟩

/-- C4: every result of `searchSimilar` carries
`similarityScore = max 0 (1 - distance / 2)` computed from the cosine
distance of its originating row, this score lies in `[0, 1]` when the
distances lie in the cosine range `[0, 2]`, and the returned list holds at
most `topK` chunks in descending-similarity (ascending-distance) order. -/
theorem C4_searchSimilar_spec (dist : EmbRow → ℚ) (rows : List EmbRow)
    (topK : Nat) (userId : Option String)
    (hd : ∀ r ∈ rows, 0 ≤ dist r ∧ dist r ≤ 2) :
    (searchSimilar dist rows topK userId).length ≤ topK
    ∧ (∀ c ∈ searchSimilar dist rows topK userId,
        ∃ r ∈ rows, c.id = r.id ∧ c.content = r.content
          ∧ c.metadata = r.metadata
          ∧ c.similarity = max 0 (1 - dist r / 2))
    ∧ (∀ c ∈ searchSimilar dist rows topK userId,
        0 ≤ c.similarity ∧ c.similarity ≤ 1)
    ∧ (searchSimilar dist rows topK userId).Pairwise
        (fun a b => b.similarity ≤ a.similarity) := by
  refine ⟨?_, ?_, ?_, ?_⟩
  · simp only [searchSimilar, List.length_map, List.length_take]
    exact min_le_left _ _
  · intro c hc
    rcases searchSimilar_mem_provenance dist rows topK userId c hc with ⟨r, hr, rfl⟩
    exact ⟨r, hr, rfl, rfl, rfl, rfl⟩
  · intro c hc
    rcases searchSimilar_mem_provenance dist rows topK userId c hc with ⟨r, hr, rfl⟩
    refine ⟨le_max_left _ _, ?_⟩
    have h0 := (hd r hr).1
    apply max_le (by norm_num)
    have : 0 ≤ dist r / 2 := by positivity
    linarith
  · haveI : IsTotal EmbRow (fun a b => dist a ≤ dist b) :=
      ⟨fun a b => le_total (dist a) (dist b)⟩
    haveI : IsTrans EmbRow (fun a b => dist a ≤ dist b) :=
      ⟨fun _ _ _ hab hbc => le_trans hab hbc⟩
    have hsorted : ((match userId with
        | some u =>
          if u ≠ "" then rows.filter (fun (r : EmbRow) => r.userId = u)
          else rows
        | none => rows).insertionSort
          (fun a b => dist a ≤ dist b)).Sorted (fun a b => dist a ≤ dist b) :=
      List.sorted_insertionSort _ _
    have htake := hsorted.sublist (List.take_sublist topK _)
    simp only [searchSimilar]
    refine List.pairwise_map.mpr (htake.imp ?_)
    intro a b hab
    apply max_le_max le_rfl
    have : dist a / 2 ≤ dist b / 2 := by linarith
    linarith

/-- Witness for C4 at a one-row store with distance 1. -/
theorem C4_searchSimilar_witness :
    (searchSimilar (fun _ => 1)
      [{ id := 1, userId := "tenantA", content := "hello", metadata := none }]
      5 none).length ≤ 5 :=
  (C4_searchSimilar_spec (fun _ => 1)
    [{ id := 1, userId := "tenantA", content := "hello", metadata := none }]
    5 none (fun r _ => ⟨by norm_num, by norm_num⟩)).1

/-- C1: evaluation at the failing input.  The store holds a single chunk
inserted under `tenantId = "tenantB"`; the `searchNotes` tool of the agent
tools module, invoked while tenant `"tenantA"` is authenticated, passes no
user id to `searchSimilar` and returns tenant B's chunk — the authenticated
tenant does not even reach the query. -/
theorem C1_searchNotesTool_cross_tenant :
    searchNotesToolExec (fun _ => 0)
      [{ id := 1, userId := "tenantB", content := "b secret note",
         metadata := some
           { source := some "b.md", fileName := none, uploadedAt := none,
             chunkIndex := none, totalChunks := none } }] none
    = { success := true,
        results := [{ content := "b secret note", source := "b.md",
                      similarity := 1 }],
        count := 1 } := by
  have hne : ("b.md" : String) = "" ↔ False := by simp
  norm_num [searchNotesToolExec, searchSimilar, resolveSource, jsOr, hne,
    List.insertionSort, List.orderedInsert]

/-- C2: evaluation at the failing input.  Tenants A and B each own one
chunk with source `notes.md`; the `DELETE` handler invoked by tenant A
removes both rows (no `user_id` filter in the delete query) and reports
`deletedCount = 2`, leaving the table empty — tenant B's chunk is gone. -/
theorem C2_deleteBySource_cross_tenant :
    deleteEmbeddingsRoute
      [{ id := 1, userId := "tenantA", content := "a chunk",
         metadata := some
           { source := some "notes.md", fileName := none, uploadedAt := none,
             chunkIndex := none, totalChunks := none } },
       { id := 2, userId := "tenantB", content := "b chunk",
         metadata := some
           { source := some "notes.md", fileName := none, uploadedAt := none,
             chunkIndex := none, totalChunks := none } }]
      (some "tenantA") (some "notes.md")
    = (.ok 2 "notes.md" "Deleted 2 chunk(s) for notes.md", []) := by
  decide

/-! ## `findGaps`: the gap-analysis tool

Both variants are embedded: the `findGapsTool` of the agent tools module
and the inline `findGaps` of the chat route.  The generative call's outcome
and the JavaScript `JSON.parse` primitive (together with the extraction of
the two optional string-array fields) are parameters. -/

/-- Index of the last occurrence of a character, JavaScript
`String.prototype.lastIndexOf` (with `none` for `-1`). -/
def lastIdxOf : List Char → Char → Option Nat
  | [], _ => none
  | x :: rest, c =>
    match lastIdxOf rest c with
    | some i => some (i + 1)
    | none => if x = c then some 0 else none

/-- The regex `/\x7b[\s\S]*\x7d/` applied to the model text: the leftmost
match runs from the first opening brace to the last closing brace after it,
or there is no match. -/
def braceMatch (t : List Char) : Option (List Char) :=
  match t.findIdx? (fun x => x = '\x7b') with
  | none => none
  | some i =>
    match lastIdxOf t '\x7d' with
    | none => none
    | some j => if i < j then some ((t.drop i).take (j + 1 - i)) else none

/-- The two optional arrays that `JSON.parse` may deliver for a gaps
response. -/
structure ParsedGaps where
  contentSuggestions : Option (List (List Char))
  clarifyingQuestions : Option (List (List Char))
deriving DecidableEq

/-- The JSON payload returned by a `findGaps` execution.  The failure
payload of the catch branch has no `hasRelevantContent` field, hence the
`Option Bool`. -/
structure GapsResult where
  success : Bool
  error : Option String
  contentSuggestions : List (List Char)
  clarifyingQuestions : List (List Char)
  hasRelevantContent : Option Bool
deriving DecidableEq

/-- Truthiness of `relevantContent || searchResultsArray.length > 0` in the
tools module (an empty string is falsy). -/
def hasContentOf (relevantContent : Option (List Char))
    (searchResults : Option (List (List Char × List Char))) : Bool :=
  (match relevantContent with
   | some s => s ≠ []
   | none => false)
  || (searchResults.getD []).length > 0

/-- Shallow embedding of the `execute` function of `findGapsTool` from the
agent tools module.  `parseJson` stands for `JSON.parse` plus field
extraction (`none` models a parse exception), `gen` for the outcome of the
`generateText` call.  No brace block in the text yields the fixed
"Unable to parse structured response" suggestion; a brace block that fails
to parse yields the whole raw text as the single suggestion; a generative
error yields `success := false`. -/
def findGapsToolExec (parseJson : List Char → Option ParsedGaps)
    (relevantContent : Option (List Char))
    (searchResults : Option (List (List Char × List Char)))
    (gen : Except String (List Char)) : GapsResult :=
  match gen with
  | .error e =>
    { success := false, error := some e, contentSuggestions := [],
      clarifyingQuestions := ["Could you provide more details?".toList],
      hasRelevantContent := none }
  | .ok text =>
    let parsed : ParsedGaps :=
      match braceMatch text with
      | some block =>
        match parseJson block with
        | some p => p
        | none =>
          { contentSuggestions := some [text],
            clarifyingQuestions :=
              some ["Could you provide more details about this topic?".toList] }
      | none =>
        { contentSuggestions :=
            some ["Unable to parse structured response".toList],
          clarifyingQuestions :=
            some ["Could you provide more details about what you\x27re looking for?".toList] }
    { success := true, error := none,
      contentSuggestions := parsed.contentSuggestions.getD [],
      clarifyingQuestions := parsed.clarifyingQuestions.getD [],
      hasRelevantContent :=
        some (hasContentOf relevantContent searchResults) }

/-- Shallow embedding of the inline `findGaps` tool of the chat route.  It
differs from the tools module in the no-match case: `parsed` stays the
empty object, so both arrays come out empty. -/
def routeFindGapsExec (parseJson : List Char → Option ParsedGaps)
    (relevantContent : Option (List Char))
    (gen : Except String (List Char)) : GapsResult :=
  match gen with
  | .error e =>
    { success := false, error := some e, contentSuggestions := [],
      clarifyingQuestions := ["Could you provide more details?".toList],
      hasRelevantContent := none }
  | .ok text =>
    let parsed : ParsedGaps :=
      match braceMatch text with
      | some block =>
        match parseJson block with
        | some p => p
        | none =>
          { contentSuggestions := some [text],
            clarifyingQuestions :=
              some ["Could you provide more details?".toList] }
      | none =>
        { contentSuggestions := none, clarifyingQuestions := none }
    { success := true, error := none,
      contentSuggestions := parsed.contentSuggestions.getD [],
      clarifyingQuestions := parsed.clarifyingQuestions.getD [],
      hasRelevantContent :=
        some (match relevantContent with
              | some s => s ≠ []
              | none => false) }

/-- C5 counterexample: on the non-JSON model text `I don't know` (which
holds no brace block) `findGapsTool` replies with the fixed
"Unable to parse structured response" suggestion, not with the raw
response, so the claimed output `contentSuggestions = ["I don't know"]` is
wrong at this input. -/
theorem C5_findGaps_counterexample :
    (findGapsToolExec (fun _ => none) none none
        (.ok "I don\x27t know".toList)).contentSuggestions
      = ["Unable to parse structured response".toList]
    ∧ (findGapsToolExec (fun _ => none) none none
        (.ok "I don\x27t know".toList)).contentSuggestions
      ≠ ["I don\x27t know".toList]
    ∧ (routeFindGapsExec (fun _ => none) none
        (.ok "I don\x27t know".toList)).contentSuggestions = [] := by
  decide

/-- C5 (amended): when the generative call succeeds, both `findGaps`
variants report `success = true`; a text with no brace block yields the
fixed "Unable to parse structured response" suggestion plus one generic
question in the tools module and empty arrays in the chat route; the whole
raw response becomes the single content suggestion exactly in the
brace-block-present, parse-failure case; and `success = false` with the
error happens exactly when the generative call itself errors. -/
theorem C5_findGaps_spec (parseJson : List Char → Option ParsedGaps)
    (rc : Option (List Char))
    (sr : Option (List (List Char × List Char))) :
    (∀ text, (findGapsToolExec parseJson rc sr (.ok text)).success = true
      ∧ (routeFindGapsExec parseJson rc (.ok text)).success = true)
    ∧ (∀ text, braceMatch text = none →
        findGapsToolExec parseJson rc sr (.ok text)
          = { success := true, error := none,
              contentSuggestions :=
                ["Unable to parse structured response".toList],
              clarifyingQuestions :=
                ["Could you provide more details about what you\x27re looking for?".toList],
              hasRelevantContent := some (hasContentOf rc sr) }
        ∧ (routeFindGapsExec parseJson rc (.ok text)).contentSuggestions = []
        ∧ (routeFindGapsExec parseJson rc (.ok text)).clarifyingQuestions = [])
    ∧ (∀ text block, braceMatch text = some block → parseJson block = none →
        (findGapsToolExec parseJson rc sr (.ok text)).contentSuggestions
          = [text]
        ∧ (findGapsToolExec parseJson rc sr
            (.ok text)).clarifyingQuestions.length = 1
        ∧ (routeFindGapsExec parseJson rc (.ok text)).contentSuggestions
          = [text])
    ∧ (∀ e, (findGapsToolExec parseJson rc sr (.error e)).success = false
        ∧ (findGapsToolExec parseJson rc sr (.error e)).error = some e
        ∧ (routeFindGapsExec parseJson rc (.error e)).success = false
        ∧ (routeFindGapsExec parseJson rc (.error e)).error = some e) := by
  refine ⟨?_, ?_, ?_, ?_⟩
  · intro text
    exact ⟨rfl, rfl⟩
  · intro text h
    refine ⟨?_, ?_, ?_⟩ <;> simp [findGapsToolExec, routeFindGapsExec, h]
  · intro text block hb hp
    refine ⟨?_, ?_, ?_⟩ <;>
      simp [findGapsToolExec, routeFindGapsExec, hb, hp]
  · intro e
    refine ⟨rfl, rfl, rfl, rfl⟩

/-- Witness for C5 at concrete brace-free and parse-failing texts. -/
theorem C5_findGaps_witness :
    (findGapsToolExec (fun _ => none) none none
        (.ok "no json here".toList)).contentSuggestions
      = ["Unable to parse structured response".toList]
    ∧ (findGapsToolExec (fun _ => none) none none
        (.ok "\x7bnot json\x7d".toList)).contentSuggestions
      = ["\x7bnot json\x7d".toList] :=
  ⟨((C5_findGaps_spec (fun _ => none) none none).2.1
      "no json here".toList (by decide)).1 ▸ rfl,
   ((C5_findGaps_spec (fun _ => none) none none).2.2.1
      "\x7bnot json\x7d".toList "\x7bnot json\x7d".toList
      (by decide) rfl).1⟩

/-! ## Agent orchestrator: `src/app/api/chat/route.ts`

The chat route configures `streamText` with the tool set and
`maxSteps: 5`; the loop body itself lives in the external `ai` package, so
it is modelled from the specification (section 4.6): each step sends the
history to the model, a final text answer ends the turn, requested tool
calls are executed and appended before the next step, and when the step
budget is exhausted the last available text is returned. -/

/-- One message of the conversation fed to the model. -/
structure ChatMsg where
  role : String
  content : List Char
deriving DecidableEq

/-- A tool call requested by the model. -/
structure AgentToolCall where
  toolName : String
  args : List Char
deriving DecidableEq

/-- What one model step can emit: a final text answer, or tool requests
possibly accompanied by partial text. -/
inductive ModelStepOut where
  | finalText (text : List Char)
  | toolRequest (partialText : Option (List Char)) (calls : List AgentToolCall)
deriving DecidableEq

/-- JavaScript-style update of the last available text: a new partial text
replaces the remembered one, otherwise the old one is kept. -/
def orOpt (p q : Option (List Char)) : Option (List Char) :=
  match p with
  | some t => some t
  | none => q

/-- Modelled from the spec: the model-call/tool-dispatch loop that
`streamText` runs for the chat route (the loop body is external `ai`
library code; only its configuration is repository code).  Returns the
final or last-available text together with the number of model calls
made. -/
def runAgentLoop (model : List ChatMsg → ModelStepOut)
    (execTool : AgentToolCall → List Char) :
    List ChatMsg → Option (List Char) → Nat → Option (List Char) × Nat
  | _, lastText, 0 => (lastText, 0)
  | history, lastText, steps + 1 =>
    match model history with
    | .finalText t => (some t, 1)
    | .toolRequest p calls =>
      let toolMsgs := calls.map (fun c => ChatMsg.mk "tool" (execTool c))
      let next := runAgentLoop model execTool (history ++ toolMsgs)
        (orOpt p lastText) steps
      (next.1, next.2 + 1)

/-- The orchestrator of one chat turn: the loop with the step budget
`maxSteps: 5` set by the chat route. -/
def chatOrchestrator (model : List ChatMsg → ModelStepOut)
    (execTool : AgentToolCall → List Char) (history : List ChatMsg) :
    Option (List Char) × Nat :=
  runAgentLoop model execTool history none 5

/-- The loop never makes more model calls than its remaining budget. -/
theorem runAgentLoop_calls_le (model : List ChatMsg → ModelStepOut)
    (execTool : AgentToolCall → List Char) :
    ∀ (fuel : Nat) (history : List ChatMsg) (lastText : Option (List Char)),
      (runAgentLoop model execTool history lastText fuel).2 ≤ fuel := by
  intro fuel
  induction fuel with
  | zero => intro history lastText; simp [runAgentLoop]
  | succ n ih =>
    intro history lastText
    simp only [runAgentLoop]
    cases model history with
    | finalText t => simp
    | toolRequest p calls =>
      simpa using ih _ _

/-- Against a model stub that always requests tool calls the loop consumes
its whole budget and carries the stub's partial text to the end. -/
theorem runAgentLoop_stub (model : List ChatMsg → ModelStepOut)
    (execTool : AgentToolCall → List Char) (p : Option (List Char))
    (calls : List AgentToolCall)
    (hstub : ∀ h, model h = .toolRequest p calls) :
    ∀ (fuel : Nat) (history : List ChatMsg) (lastText : Option (List Char)),
      runAgentLoop model execTool history lastText (fuel + 1)
        = (orOpt p lastText, fuel + 1) := by
  intro fuel
  induction fuel with
  | zero =>
    intro history lastText
    simp only [runAgentLoop, hstub]
  | succ n ih =>
    intro history lastText
    conv_lhs => rw [runAgentLoop]
    rw [hstub]
    simp only [ih]
    cases p <;> simp [orOpt]

/-- C3: for every message history the orchestrator performs at most five
model steps, and with a model stub that requests a tool call at every step
it stops after exactly the five budgeted steps and returns the last
available textual output (the stub's partial text) instead of looping. -/
theorem C3_agent_loop_terminates (model : List ChatMsg → ModelStepOut)
    (execTool : AgentToolCall → List Char) (history : List ChatMsg) :
    (chatOrchestrator model execTool history).2 ≤ 5
    ∧ (∀ p calls, (∀ h, model h = .toolRequest p calls) →
        chatOrchestrator model execTool history = (orOpt p none, 5)) := by
  constructor
  · exact runAgentLoop_calls_le model execTool 5 history none
  · intro p calls hstub
    exact runAgentLoop_stub model execTool p calls hstub 4 history none

/-- Witness for C3 with a stub that always requests `searchNotes` and emits
the partial text `partial`. -/
theorem C3_agent_loop_witness :
    chatOrchestrator
      (fun _ => .toolRequest (some "partial".toList)
        [{ toolName := "searchNotes", args := [] }])
      (fun _ => []) []
      = (some "partial".toList, 5) :=
  (C3_agent_loop_terminates
      (fun _ => .toolRequest (some "partial".toList)
        [{ toolName := "searchNotes", args := [] }])
      (fun _ => []) []).2 (some "partial".toList)
    [{ toolName := "searchNotes", args := [] }] (fun _ => rfl)

/-! ## Upload ingestion: the chunk insertion loop of `POST /api/upload` -/

/-- A row as created by `insertEmbedding` during ingestion (the
database-assigned id is omitted). -/
structure IngestRow where
  content : List Char
  userId : String
  metadata : ChunkMeta
deriving DecidableEq

/-- Response of the upload route: the success JSON carries `fileName`,
`chunksInserted` and `message`; the failure JSON of the catch branch
carries only an `error` string next to the HTTP status. -/
inductive UploadResp where
  | ok (fileName : String) (chunksInserted : Nat) (message : String)
  | err (status : Nat) (error : String)
deriving DecidableEq

/-- The row written for chunk number `i` of `total`. -/
def ingestRowFor (userId fileName now : String) (total i : Nat)
    (chunk : List Char) : IngestRow :=
  { content := chunk, userId := userId,
    metadata := { source := some fileName, fileName := some fileName,
                  uploadedAt := some now, chunkIndex := some i,
                  totalChunks := some total } }

/-- The rows produced by inserting `chunks` starting at index `i`. -/
def ingestRowsFrom (userId fileName now : String) (total : Nat) :
    Nat → List (List Char) → List IngestRow
  | _, [] => []
  | i, chunk :: rest =>
    ingestRowFor userId fileName now total i chunk
      :: ingestRowsFrom userId fileName now total (i + 1) rest

/-- Inner loop of the upload `POST` handler: inserts the chunks in order,
counting with `inserted`; `failAt` gives the outcome of each
`insertEmbedding` call (`some msg` models a thrown error).  A failure is
caught by the route's catch which answers `500` with only the error
message; rows already inserted stay inserted. -/
def uploadInsertGo (failAt : Nat → Option String)
    (userId fileName now : String) (total : Nat) :
    Nat → List IngestRow → List (List Char) → UploadResp × List IngestRow
  | inserted, acc, [] =>
    (.ok fileName inserted
      ("Successfully processed " ++ fileName ++ " into "
        ++ toString inserted ++ " chunks"), acc)
  | inserted, acc, chunk :: rest =>
    match failAt inserted with
    | some msg => (.err 500 msg, acc)
    | none =>
      uploadInsertGo failAt userId fileName now total (inserted + 1)
        (acc ++ [ingestRowFor userId fileName now total inserted chunk]) rest

/-- The chunk insertion loop of the upload route, returning the HTTP
response and the rows the store now holds. -/
def uploadInsertLoop (failAt : Nat → Option String)
    (userId fileName now : String) (chunks : List (List Char)) :
    UploadResp × List IngestRow :=
  uploadInsertGo failAt userId fileName now chunks.length 0 [] chunks

/-- When no insert fails, the loop inserts every chunk and reports the full
count. -/
theorem uploadInsertGo_ok (failAt : Nat → Option String)
    (userId fileName now : String) (total : Nat) :
    ∀ (rest : List (List Char)) (inserted : Nat) (acc : List IngestRow),
      (∀ i, inserted ≤ i → i < inserted + rest.length → failAt i = none) →
      uploadInsertGo failAt userId fileName now total inserted acc rest
        = (.ok fileName (inserted + rest.length)
            ("Successfully processed " ++ fileName ++ " into "
              ++ toString (inserted + rest.length) ++ " chunks"),
           acc ++ ingestRowsFrom userId fileName now total inserted rest) := by
  intro rest
  induction rest with
  | nil =>
    intro inserted acc h
    simp [uploadInsertGo, ingestRowsFrom]
  | cons c cs ih =>
    intro inserted acc h
    have h0 : failAt inserted = none := h inserted le_rfl (by simp)
    have hlen : inserted + (c :: cs).length = inserted + 1 + cs.length := by
      simp; omega
    simp only [uploadInsertGo, h0]
    rw [ih (inserted + 1) (acc ++ [ingestRowFor userId fileName now total
      inserted c]) (fun i h1 h2 => h i (by omega) (by simp at h2 ⊢; omega))]
    rw [hlen]
    simp [ingestRowsFrom]

/-- When the insert of chunk `j` fails (all earlier ones succeeding), the
loop stops with the 500 error response and keeps exactly the first `j`
rows. -/
theorem uploadInsertGo_err (failAt : Nat → Option String)
    (userId fileName now : String) (total : Nat) :
    ∀ (rest : List (List Char)) (inserted : Nat) (acc : List IngestRow)
      (j : Nat) (msg : String), j < rest.length →
      (∀ i, inserted ≤ i → i < inserted + j → failAt i = none) →
      failAt (inserted + j) = some msg →
      uploadInsertGo failAt userId fileName now total inserted acc rest
        = (.err 500 msg,
           acc ++ ingestRowsFrom userId fileName now total inserted
             (rest.take j)) := by
  intro rest
  induction rest with
  | nil =>
    intro inserted acc j msg hj
    exact absurd hj (by simp)
  | cons c cs ih =>
    intro inserted acc j msg hj hok hfail
    cases j with
    | zero =>
      have h0 : failAt inserted = some msg := by simpa using hfail
      simp [uploadInsertGo, h0, ingestRowsFrom]
    | succ j =>
      have h0 : failAt inserted = none :=
        hok inserted le_rfl (by omega)
      simp only [uploadInsertGo, h0]
      rw [ih (inserted + 1) (acc ++ [ingestRowFor userId fileName now total
          inserted c]) j msg (by simpa using hj)
        (fun i h1 h2 => hok i (by omega) (by omega))
        (by rw [show inserted + 1 + j = inserted + (j + 1) by omega]
            exact hfail)]
      simp [ingestRowsFrom]

/-- `ingestRowsFrom` writes one row per chunk. -/
theorem ingestRowsFrom_length (userId fileName now : String) (total : Nat) :
    ∀ (rest : List (List Char)) (i : Nat),
      (ingestRowsFrom userId fileName now total i rest).length
        = rest.length := by
  intro rest
  induction rest with
  | nil => intro i; rfl
  | cons c cs ih => intro i; simp [ingestRowsFrom, ih]

/-- The row built for position `k` of `ingestRowsFrom` carries chunk index
`i + k` and the fixed total. -/
theorem ingestRowsFrom_get (userId fileName now : String) (total : Nat) :
    ∀ (rest : List (List Char)) (i k : Nat)
      (hk : k < (ingestRowsFrom userId fileName now total i rest).length),
      (ingestRowsFrom userId fileName now total i rest).get ⟨k, hk⟩
        = ingestRowFor userId fileName now total (i + k)
            (rest.get ⟨k, by
              have := ingestRowsFrom_length userId fileName now total rest i
              omega⟩) := by
  intro rest
  induction rest with
  | nil =>
    intro i k hk
    exact absurd hk (by simp [ingestRowsFrom])
  | cons c cs ih =>
    intro i k hk
    cases k with
    | zero => simp [ingestRowsFrom]
    | succ k =>
      have hk2 : k < (ingestRowsFrom userId fileName now total (i + 1)
          cs).length := by
        simpa [ingestRowsFrom] using hk
      have := ih (i + 1) k hk2
      simp only [ingestRowsFrom, List.get_cons_succ, this]
      congr 1
      omega

/-- C6 (amended): ingestion assigns `chunkIndex` sequentially in chunk
order with `totalChunks = n` in every inserted row's metadata; when the
insert of chunk `i` fails, ingestion stops, keeps chunks `0..i-1` inserted
(no rollback) and answers 500 carrying the error message — the count
inserted so far is not part of the failure response. -/
theorem C6_upload_ingestion_spec (failAt : Nat → Option String)
    (userId fileName now : String) (chunks : List (List Char)) :
    ((∀ i, i < chunks.length → failAt i = none) →
      uploadInsertLoop failAt userId fileName now chunks
        = (.ok fileName chunks.length
            ("Successfully processed " ++ fileName ++ " into "
              ++ toString chunks.length ++ " chunks"),
           ingestRowsFrom userId fileName now chunks.length 0 chunks))
    ∧ (∀ j msg, j < chunks.length →
        (∀ i, i < j → failAt i = none) → failAt j = some msg →
        uploadInsertLoop failAt userId fileName now chunks
          = (.err 500 msg,
             ingestRowsFrom userId fileName now chunks.length 0
               (chunks.take j)))
    ∧ (∀ (total i k : Nat) (rest : List (List Char))
        (hk : k < (ingestRowsFrom userId fileName now total i rest).length),
        ((ingestRowsFrom userId fileName now total i rest).get
            ⟨k, hk⟩).metadata.chunkIndex = some (i + k)
        ∧ ((ingestRowsFrom userId fileName now total i rest).get
            ⟨k, hk⟩).metadata.totalChunks = some total) := by
  refine ⟨?_, ?_, ?_⟩
  · intro h
    have := uploadInsertGo_ok failAt userId fileName now chunks.length
      chunks 0 [] (fun i h1 h2 => h i (by omega))
    simpa [uploadInsertLoop] using this
  · intro j msg hj hok hfail
    have := uploadInsertGo_err failAt userId fileName now chunks.length
      chunks 0 [] j msg hj (fun i h1 h2 => hok i (by omega))
      (by simpa using hfail)
    simpa [uploadInsertLoop] using this
  · intro total i k rest hk
    rw [ingestRowsFrom_get]
    exact ⟨rfl, rfl⟩

/-- C6 counterexample: with three chunks and the insert of chunk 1
throwing, the loop keeps the row of chunk 0 (no rollback, sequential
index), but the HTTP answer is the bare 500 error payload — the count of
chunks inserted so far appears nowhere in the failure response, though the
claim says it is reported together with the error. -/
theorem C6_upload_counterexample :
    uploadInsertLoop (fun i => if i = 1 then some "insert failed" else none)
      "tenantA" "f.md" "t0" ["a".toList, "b".toList, "c".toList]
    = (.err 500 "insert failed",
       [{ content := "a".toList, userId := "tenantA",
          metadata := { source := some "f.md", fileName := some "f.md",
                        uploadedAt := some "t0", chunkIndex := some 0,
                        totalChunks := some 3 } }]) := by
  decide

/-- Witness for C6 at a concrete clean two-chunk ingestion. -/
theorem C6_upload_witness :
    uploadInsertLoop (fun _ => none) "tenantA" "f.md" "t0"
      ["a".toList, "b".toList]
    = (.ok "f.md" 2 "Successfully processed f.md into 2 chunks",
       ingestRowsFrom "tenantA" "f.md" "t0" 2 0
         ["a".toList, "b".toList]) :=
  (C6_upload_ingestion_spec (fun _ => none) "tenantA" "f.md" "t0"
    ["a".toList, "b".toList]).1 (fun _ _ => rfl)

/-! ## Text chunker: `chunkText` of the upload route

Two variants exist in the repository: the boundary-aware chunker of the
word-boundary upload route (embedded as `chunkText`) and the simpler
sentence-split chunker of `src/app/api/upload/route.ts` (embedded as
`chunkTextSimple`).  JavaScript strings become `List Char`; `s[i]` becomes
`getD i` with a non-whitespace default, matching `undefined` never being a
whitespace character.  Conditions of the form `x >= chunkSize * 0.5` are
written `2 * x ≥ chunkSize`, which is exact for the integer quantities
involved. -/

/-- The three word-boundary characters of the chunker's helpers:
space, tab and newline. -/
def isBoundaryWs (c : Char) : Bool :=
  c = ' ' || c = '\t' || c = '\n'

/-- JavaScript `String.prototype.trim` whitespace (the members relevant to
markdown text: space, tab, line feed, carriage return, vertical tab, form
feed, no-break space, BOM, line and paragraph separators). -/
def isTrimWs (c : Char) : Bool :=
  c = ' ' || c = '\t' || c = '\n' || c = '\x0d' || c = '\x0b' || c = '\x0c'
    || c = '\u00A0' || c = '\uFEFF' || c = '\u2028' || c = '\u2029'

/-- `String.prototype.trimStart`. -/
def trimStart (l : List Char) : List Char :=
  l.dropWhile isTrimWs

/-- `String.prototype.trimEnd`. -/
def trimEnd (l : List Char) : List Char :=
  (l.reverse.dropWhile isTrimWs).reverse

/-- `String.prototype.trim`. -/
def trim (l : List Char) : List Char :=
  trimEnd (trimStart l)

/-- JavaScript `text.slice(a, b)` for `a ≤ b` within bounds. -/
def slice (l : List Char) (a b : Nat) : List Char :=
  (l.drop a).take (b - a)

/-- Index of the first boundary-whitespace character of a list. -/
def firstWsIdx : List Char → Option Nat
  | [] => none
  | c :: rest =>
    if isBoundaryWs c then some 0 else (firstWsIdx rest).map (· + 1)

/-- The chunker's `findNextWordBoundary`: the first boundary-whitespace
position at or after `minPos`, or the length when there is none. -/
def findNextWordBoundary (str : List Char) (minPos : Nat) : Nat :=
  match firstWsIdx (str.drop minPos) with
  | some k => minPos + k
  | none => str.length

/-- Descending scan of `findLastWordBoundary`: checks positions
`i, i-1, …, 1` (position 0 is deliberately skipped by the source). -/
def findLastWBGo (str : List Char) : Nat → Option Nat
  | 0 => none
  | i + 1 =>
    if isBoundaryWs (str.getD (i + 1) '\x00') then some (i + 1)
    else findLastWBGo str i

/-- The chunker's `findLastWordBoundary`: the last boundary-whitespace
position in `1 … min maxPos (length - 1)`, or none. -/
def findLastWordBoundary (str : List Char) (maxPos : Nat) : Option Nat :=
  findLastWBGo str (min maxPos (str.length - 1))

/-- Outcome of one iteration of a chunking loop: stop emitting the final
chunks, or emit some chunks and continue at a new scan position. -/
inductive ChunkStep where
  | stop (emit : List (List Char))
  | go (emit : List (List Char)) (next : Nat)

/-- First priority of the split-point search: the last period, provided it
clears the midpoint and is directly followed by whitespace; the split lands
just after the period. -/
def sentenceSplitPoint (chunk : List Char) (chunkSize : Nat) : Option Nat :=
  match lastIdxOf chunk '.' with
  | some p =>
    if 2 * p ≥ chunkSize ∧ p < chunk.length - 1
        ∧ isBoundaryWs (chunk.getD (p + 1) '\x00') = true then
      some (p + 1)
    else none
  | none => none

/-- Second priority: keep the sentence split, else take the last newline
when it clears the midpoint. -/
def lineSplitPoint (chunk : List Char) (chunkSize : Nat) : Option Nat :=
  match sentenceSplitPoint chunk chunkSize with
  | some sp => some sp
  | none =>
    match lastIdxOf chunk '\n' with
    | some nl => if 2 * nl ≥ chunkSize then some nl else none
    | none => none

/-- The split-point search of the boundary-aware chunker over one window:
a sentence end at or after the midpoint, else a newline at or after the
midpoint, else the last word boundary anywhere in the window; `none` models
`-1`. -/
def splitPointOf (chunk : List Char) (chunkSize : Nat) : Option Nat :=
  if (match lineSplitPoint chunk chunkSize with
      | none => true
      | some sp => decide (2 * sp < chunkSize)) then
    match findLastWordBoundary chunk (chunk.length - 1) with
    | some wb => some wb
    | none => lineSplitPoint chunk chunkSize
  else lineSplitPoint chunk chunkSize

/-- The next scan position after cutting at `chunkEnd`: overlap the next
window by `chunkOverlap`, snapped backward to the nearest word boundary at
or after the current window's start, else forward to the next word
boundary, else to the cut itself. -/
def nextStartOf (text : List Char) (chunkOverlap start chunkEnd : Nat) :
    Nat :=
  let overlapStartBounded := max start (chunkEnd - chunkOverlap)
  let textBeforeOverlap := text.take overlapStartBounded
  match findLastWordBoundary textBeforeOverlap textBeforeOverlap.length with
  | some ob =>
    if start ≤ ob then ob + 1
    else
      if findNextWordBoundary text overlapStartBounded < text.length then
        findNextWordBoundary text overlapStartBounded + 1
      else chunkEnd
  | none =>
    if findNextWordBoundary text overlapStartBounded < text.length then
      findNextWordBoundary text overlapStartBounded + 1
    else chunkEnd

/-- One iteration of the boundary-aware `chunkText` loop, translated
branch by branch from the source: the final-window break; the split-point
search (`splitPointOf`); the overlap computation (`nextStartOf`); and the
no-split fallback that extends to the next word boundary or takes the
window as the last chunk. -/
def chunkStep (text : List Char) (chunkSize chunkOverlap start : Nat) :
    ChunkStep :=
  if start < text.length then
    let idealEnd := min (start + chunkSize) text.length
    let chunk := slice text start idealEnd
    if idealEnd ≥ text.length then
      .stop [trim chunk]
    else
      let fallback : ChunkStep :=
        let nb := findNextWordBoundary text idealEnd
        if nb < text.length then
          let cut := trimEnd (slice text start nb)
          .go (if (trim cut).length > 0 then [trim cut] else []) (nb + 1)
        else
          .stop [trim chunk]
      match splitPointOf chunk chunkSize with
      | some sp =>
        if 0 < sp then
          let cut := trimEnd (slice text start (start + sp))
          .go (if (trim cut).length > 0 then [trim cut] else [])
            (nextStartOf text chunkOverlap start (start + sp))
        else fallback
      | none => fallback
  else
    .stop []

/-- The boundary-aware `chunkText` loop, with explicit fuel (one unit per
iteration; the fuel `length + 1` of `chunkText` is proven sufficient). -/
def chunkTextAux (text : List Char) (chunkSize chunkOverlap : Nat) :
    Nat → Nat → Option (List (List Char))
  | 0, _ => none
  | fuel + 1, start =>
    match chunkStep text chunkSize chunkOverlap start with
    | .stop emit => some emit
    | .go emit next =>
      match chunkTextAux text chunkSize chunkOverlap fuel next with
      | none => none
      | some rest => some (emit ++ rest)

/-- The boundary-aware `chunkText`: run the loop, then drop empty chunks as
the source's final `filter` does. -/
def chunkText (text : List Char) (chunkSize chunkOverlap : Nat) :
    List (List Char) :=
  ((chunkTextAux text chunkSize chunkOverlap (text.length + 1) 0).getD
    []).filter (fun c => c.length > 0)

/-- JavaScript `Math.max(lastPeriod, lastNewline)` over `-1`-style
values. -/
def maxIdx (a b : Option Nat) : Option Nat :=
  match a, b with
  | none, none => none
  | some p, none => some p
  | none, some n => some n
  | some p, some n => some (max p n)

/-- One iteration of the simpler `chunkText` of `upload/route.ts`: take the
window, and if it is not final, split after the later of the last period
and last newline when that point clears the midpoint (advancing by
`splitPoint + 1 - overlap`), otherwise advance by `chunkSize - overlap`;
the trimmed chunk is pushed unconditionally and the final filter drops
empties. -/
def chunkStepSimple (text : List Char) (chunkSize chunkOverlap start : Nat) :
    ChunkStep :=
  if start < text.length then
    let endPos := min (start + chunkSize) text.length
    let chunk := slice text start endPos
    if endPos < text.length then
      let splitPoint := maxIdx (lastIdxOf chunk '.') (lastIdxOf chunk '\n')
      match splitPoint with
      | some sp =>
        if 2 * sp > chunkSize then
          .go [trim (slice text start (start + sp + 1))]
            (start + sp + 1 - chunkOverlap)
        else
          .go [trim chunk] (start + chunkSize - chunkOverlap)
      | none => .go [trim chunk] (start + chunkSize - chunkOverlap)
    else
      .stop [trim chunk]
  else
    .stop []

/-- The simpler `chunkText` loop with explicit fuel. -/
def chunkTextSimpleAux (text : List Char) (chunkSize chunkOverlap : Nat) :
    Nat → Nat → Option (List (List Char))
  | 0, _ => none
  | fuel + 1, start =>
    match chunkStepSimple text chunkSize chunkOverlap start with
    | .stop emit => some emit
    | .go emit next =>
      match chunkTextSimpleAux text chunkSize chunkOverlap fuel next with
      | none => none
      | some rest => some (emit ++ rest)

/-- The simpler `chunkText` of `upload/route.ts`. -/
def chunkTextSimple (text : List Char) (chunkSize chunkOverlap : Nat) :
    List (List Char) :=
  ((chunkTextSimpleAux text chunkSize chunkOverlap (text.length + 1) 0).getD
    []).filter (fun c => c.length > 0)

/-- The chunker's boundary characters are trim whitespace. -/
theorem isTrimWs_of_isBoundaryWs {c : Char} (h : isBoundaryWs c = true) :
    isTrimWs c = true := by
  simp only [isBoundaryWs, isTrimWs, Bool.or_eq_true] at h ⊢
  tauto

/-- The head surviving `dropWhile` fails the predicate. -/
theorem dropWhile_head_false {p : Char → Bool} :
    ∀ {l : List Char} {a : Char} {t : List Char},
      l.dropWhile p = a :: t → p a = false := by
  intro l
  induction l with
  | nil => intro a t h; simp at h
  | cons c cs ih =>
    intro a t h
    rw [List.dropWhile_cons] at h
    by_cases hc : p c = true
    · rw [if_pos hc] at h
      exact ih h
    · rw [if_neg hc] at h
      cases h
      exact Bool.not_eq_true _ |>.mp hc

/-- `trimStart` removes a whitespace head segment. -/
theorem trimStart_decomp (l : List Char) :
    ∃ pre, l = pre ++ trimStart l ∧ ∀ c ∈ pre, isTrimWs c = true :=
  ⟨l.takeWhile isTrimWs, (List.takeWhile_append_dropWhile isTrimWs l).symm,
    fun _ hc => List.mem_takeWhile_imp hc⟩

/-- `trimEnd` removes a whitespace tail segment. -/
theorem trimEnd_decomp (l : List Char) :
    ∃ post, l = trimEnd l ++ post ∧ ∀ c ∈ post, isTrimWs c = true := by
  refine ⟨(l.reverse.takeWhile isTrimWs).reverse, ?_, ?_⟩
  · conv_lhs => rw [← List.reverse_reverse l,
      ← List.takeWhile_append_dropWhile isTrimWs l.reverse]
    rw [List.reverse_append]
    rfl
  · intro c hc
    exact List.mem_takeWhile_imp (List.mem_reverse.mp hc)

/-- `trim` removes whitespace segments from both ends. -/
theorem trim_decomp (l : List Char) :
    ∃ pre post, l = pre ++ trim l ++ post
      ∧ (∀ c ∈ pre, isTrimWs c = true)
      ∧ (∀ c ∈ post, isTrimWs c = true) := by
  rcases trimStart_decomp l with ⟨pre, hpre, hprews⟩
  rcases trimEnd_decomp (trimStart l) with ⟨post, hpost, hpostws⟩
  refine ⟨pre, post, ?_, hprews, hpostws⟩
  rw [trim, List.append_assoc, ← hpost, ← hpre]

/-- A nonempty trimmed string starts with a non-whitespace character. -/
theorem trim_head_not_ws {l : List Char} {a : Char} {t : List Char}
    (h : trim l = a :: t) : isTrimWs a = false := by
  rcases trimEnd_decomp (trimStart l) with ⟨post, hpost, -⟩
  rw [trim] at h
  rw [h] at hpost
  have h2 : trimStart l = a :: (t ++ post) := by rw [hpost]; simp
  exact dropWhile_head_false h2

/-- A nonempty trimmed string ends with a non-whitespace character. -/
theorem trim_getLast_not_ws {l : List Char} {a : Char} {t : List Char}
    (h : trim l = t ++ [a]) : isTrimWs a = false := by
  have hrev : (trim l).reverse = (trimStart l).reverse.dropWhile isTrimWs := by
    rw [trim, trimEnd, List.reverse_reverse]
  rw [h] at hrev
  simp only [List.reverse_append, List.reverse_cons, List.reverse_nil,
    List.nil_append, List.singleton_append] at hrev
  exact dropWhile_head_false hrev.symm

/-- `trim` is idempotent. -/
theorem trim_idem (l : List Char) : trim (trim l) = trim l := by
  have hstart : trimStart (trim l) = trim l := by
    cases htl : trim l with
    | nil => rfl
    | cons a t =>
      rw [trimStart, List.dropWhile_cons, if_neg]
      rw [trim_head_not_ws htl]
      simp
  have hend : trimEnd (trim l) = trim l := by
    rcases List.eq_nil_or_concat (trim l) with htl | ⟨t, a, htl⟩
    · rw [htl]; rfl
    · rw [List.concat_eq_append] at htl
      rw [trimEnd, htl, List.reverse_append]
      simp only [List.reverse_cons, List.reverse_nil, List.nil_append,
        List.singleton_append, List.dropWhile_cons]
      rw [trim_getLast_not_ws htl]
      simp
  rw [trim, hstart, hend]

/-- `getD` through `drop`. -/
theorem getD_drop (l : List Char) (n i : Nat) (d : Char) :
    (l.drop n).getD i d = l.getD (n + i) d := by
  rw [List.getD_eq_getElem?_getD, List.getD_eq_getElem?_getD,
    List.getElem?_drop]

/-- `getD` through `take`, inside the taken range. -/
theorem getD_take (l : List Char) {n i : Nat} (h : i < n) (d : Char) :
    (l.take n).getD i d = l.getD i d := by
  rw [List.getD_eq_getElem?_getD, List.getD_eq_getElem?_getD,
    List.getElem?_take, if_pos h]

/-- `getD` through `slice`, inside the sliced range. -/
theorem getD_slice (l : List Char) {a b i : Nat} (h : i < b - a) (d : Char) :
    (slice l a b).getD i d = l.getD (a + i) d := by
  rw [slice, getD_take (l.drop a) h, getD_drop]

/-- Splitting a list around a slice. -/
theorem slice_decomp (l : List Char) {a b : Nat} (hab : a ≤ b)
    (hbl : b ≤ l.length) :
    l = l.take a ++ slice l a b ++ l.drop b := by
  conv_lhs => rw [← List.take_append_drop a l]
  rw [List.append_assoc]
  congr 1
  conv_lhs => rw [← List.take_append_drop (b - a) (l.drop a)]
  rw [slice, List.drop_drop]
  congr 2
  omega

/-- A nonempty slice starts at the character of its start position. -/
theorem slice_getD_zero (l : List Char) {a b : Nat} (d : Char)
    (h : slice l a b ≠ []) : (slice l a b).getD 0 d = l.getD a d := by
  have hlen : 0 < (slice l a b).length := List.length_pos.mpr h
  rw [slice, List.length_take, List.length_drop, lt_min_iff] at hlen
  rw [getD_slice l hlen.1, Nat.add_zero]

/-- Spec of `firstWsIdx`: a found index is in range and whitespace. -/
theorem firstWsIdx_spec :
    ∀ {l : List Char} {k : Nat}, firstWsIdx l = some k →
      k < l.length ∧ isBoundaryWs (l.getD k '\x00') = true := by
  intro l
  induction l with
  | nil => intro k h; simp [firstWsIdx] at h
  | cons c cs ih =>
    intro k h
    rw [firstWsIdx] at h
    by_cases hc : isBoundaryWs c = true
    · rw [if_pos hc] at h
      cases h
      exact ⟨by simp, hc⟩
    · rw [if_neg hc] at h
      match hk : firstWsIdx cs with
      | none => rw [hk] at h; exact Option.noConfusion h
      | some k0 =>
        rw [hk] at h
        simp only [Option.map_some'] at h
        cases h
        rcases ih hk with ⟨h1, h2⟩
        exact ⟨by simpa using h1, h2⟩

/-- Spec of `findNextWordBoundary`: the result is at least `minPos`, at
most the length, and whitespace when inside the text. -/
theorem findNextWordBoundary_spec (str : List Char) (minPos : Nat) :
    minPos ≤ findNextWordBoundary str minPos
      ∨ findNextWordBoundary str minPos = str.length := by
  cases hk : firstWsIdx (str.drop minPos) with
  | none =>
    right
    rw [findNextWordBoundary, hk]
  | some k =>
    left
    have : findNextWordBoundary str minPos = minPos + k := by
      rw [findNextWordBoundary, hk]
    omega

/-- A `findNextWordBoundary` result inside the text points at
whitespace and lies at or after `minPos`. -/
theorem findNextWordBoundary_lt (str : List Char) (minPos : Nat)
    (h : findNextWordBoundary str minPos < str.length) :
    minPos ≤ findNextWordBoundary str minPos
      ∧ isBoundaryWs (str.getD (findNextWordBoundary str minPos) '\x00')
          = true := by
  cases hk : firstWsIdx (str.drop minPos) with
  | none =>
    have heq : findNextWordBoundary str minPos = str.length := by
      rw [findNextWordBoundary, hk]
    omega
  | some k =>
    have heq : findNextWordBoundary str minPos = minPos + k := by
      rw [findNextWordBoundary, hk]
    rcases firstWsIdx_spec hk with ⟨-, h2⟩
    rw [getD_drop] at h2
    rw [heq]
    exact ⟨by omega, h2⟩

/-- Spec of the descending scan: a found index is positive, bounded by the
scan start and whitespace. -/
theorem findLastWBGo_spec (str : List Char) :
    ∀ {n i : Nat}, findLastWBGo str n = some i →
      1 ≤ i ∧ i ≤ n ∧ isBoundaryWs (str.getD i '\x00') = true := by
  intro n
  induction n with
  | zero => intro i h; simp [findLastWBGo] at h
  | succ m ih =>
    intro i h
    rw [findLastWBGo] at h
    by_cases hc : isBoundaryWs (str.getD (m + 1) '\x00') = true
    · rw [if_pos hc] at h
      cases h
      exact ⟨by omega, le_rfl, hc⟩
    · rw [if_neg hc] at h
      rcases ih h with ⟨h1, h2, h3⟩
      exact ⟨h1, by omega, h3⟩

/-- Spec of `findLastWordBoundary`: a found index is positive, inside the
string, bounded by `maxPos` and whitespace. -/
theorem findLastWordBoundary_spec (str : List Char) (maxPos : Nat) {i : Nat}
    (h : findLastWordBoundary str maxPos = some i) :
    1 ≤ i ∧ i < str.length ∧ i ≤ maxPos
      ∧ isBoundaryWs (str.getD i '\x00') = true := by
  rw [findLastWordBoundary] at h
  rcases findLastWBGo_spec str h with ⟨h1, h2, h3⟩
  have := min_le_left maxPos (str.length - 1)
  have := min_le_right maxPos (str.length - 1)
  exact ⟨h1, by omega, by omega, h3⟩

/-- Spec of `lastIdxOf`: a found index is in range and holds the
character. -/
theorem lastIdxOf_spec :
    ∀ {l : List Char} {c : Char} {i : Nat}, lastIdxOf l c = some i →
      i < l.length ∧ l.getD i '\x00' = c := by
  intro l
  induction l with
  | nil => intro c i h; simp [lastIdxOf] at h
  | cons x rest ih =>
    intro c i h
    rw [lastIdxOf] at h
    match hr : lastIdxOf rest c with
    | some j =>
      rw [hr] at h
      cases h
      rcases ih hr with ⟨h1, h2⟩
      exact ⟨by simpa using h1, by simpa using h2⟩
    | none =>
      rw [hr] at h
      by_cases hx : x = c
      · rw [if_pos hx] at h
        cases h
        exact ⟨by simp, hx⟩
      · rw [if_neg hx] at h
        cases h

/-- A sentence split point is inside the window and lands on
whitespace. -/
theorem sentenceSplitPoint_spec {chunk : List Char} {chunkSize sp : Nat}
    (h : sentenceSplitPoint chunk chunkSize = some sp) :
    0 < sp ∧ sp < chunk.length
      ∧ isBoundaryWs (chunk.getD sp '\x00') = true := by
  rw [sentenceSplitPoint] at h
  split at h
  · rename_i p hp
    split at h
    · rename_i hc
      cases h
      rcases lastIdxOf_spec hp with ⟨hlt, -⟩
      exact ⟨by omega, by omega, hc.2.2⟩
    · exact Option.noConfusion h
  · exact Option.noConfusion h

/-- A sentence-or-newline split point is inside the window and lands on
whitespace. -/
theorem lineSplitPoint_spec {chunk : List Char} {chunkSize sp : Nat}
    (h : lineSplitPoint chunk chunkSize = some sp) :
    sp < chunk.length ∧ isBoundaryWs (chunk.getD sp '\x00') = true := by
  rw [lineSplitPoint] at h
  split at h
  · rename_i q hs
    cases h
    rcases sentenceSplitPoint_spec hs with ⟨-, h2, h3⟩
    exact ⟨h2, h3⟩
  · rename_i hs
    split at h
    · rename_i nl hn
      split at h
      · rename_i hc
        cases h
        rcases lastIdxOf_spec hn with ⟨h1, h2⟩
        refine ⟨h1, ?_⟩
        rw [h2]
        rfl
      · exact Option.noConfusion h
    · exact Option.noConfusion h

/-- Any split point chosen for a window is inside the window and lands on
whitespace. -/
theorem splitPointOf_spec {chunk : List Char} {chunkSize sp : Nat}
    (h : splitPointOf chunk chunkSize = some sp) :
    sp < chunk.length ∧ isBoundaryWs (chunk.getD sp '\x00') = true := by
  rw [splitPointOf] at h
  split at h
  · split at h
    · rename_i wb hw
      cases h
      rcases findLastWordBoundary_spec _ _ hw with ⟨-, h2, -, h4⟩
      exact ⟨h2, h4⟩
    · exact lineSplitPoint_spec h
  · exact lineSplitPoint_spec h

/-- The next scan position strictly advances past the current one. -/
theorem nextStartOf_gt {text : List Char} {chunkOverlap start chunkEnd : Nat}
    (h : start < chunkEnd) :
    start < nextStartOf text chunkOverlap start chunkEnd := by
  simp only [nextStartOf]
  split
  · rename_i ob hob
    split
    · rename_i hos
      omega
    · rename_i hos
      split
      · rename_i hnb
        rcases findNextWordBoundary_lt text _ hnb with ⟨h1, -⟩
        have h2 := le_max_left start (chunkEnd - chunkOverlap)
        omega
      · exact h
  · split
    · rename_i hnb
      rcases findNextWordBoundary_lt text _ hnb with ⟨h1, -⟩
      have h2 := le_max_left start (chunkEnd - chunkOverlap)
      omega
    · exact h

/-- The word-start invariant of the chunking loop: the scan position is
the text start, or preceded by whitespace, or itself on whitespace. -/
def wordStartInv (text : List Char) (s : Nat) : Prop :=
  s = 0 ∨ (1 ≤ s ∧ isBoundaryWs (text.getD (s - 1) '\x00') = true)
    ∨ isBoundaryWs (text.getD s '\x00') = true

/-- The next scan position satisfies the word-start invariant whenever the
cut position itself sits on whitespace. -/
theorem nextStartOf_inv {text : List Char} {chunkOverlap start chunkEnd : Nat}
    (hws : isBoundaryWs (text.getD chunkEnd '\x00') = true) :
    wordStartInv text (nextStartOf text chunkOverlap start chunkEnd) := by
  rw [wordStartInv]
  simp only [nextStartOf]
  split
  · rename_i ob hob
    rcases findLastWordBoundary_spec _ _ hob with ⟨h1, h2, -, h4⟩
    split
    · rename_i hos
      right; left
      refine ⟨by omega, ?_⟩
      have hoblt : ob < max start (chunkEnd - chunkOverlap) := by
        rw [List.length_take] at h2
        omega
      rw [Nat.add_sub_cancel]
      rw [getD_take text hoblt] at h4
      exact h4
    · rename_i hos
      split
      · rename_i hnb
        rcases findNextWordBoundary_lt text _ hnb with ⟨-, h5⟩
        right; left
        refine ⟨by omega, ?_⟩
        rw [Nat.add_sub_cancel]
        exact h5
      · right; right
        exact hws
  · split
    · rename_i hnb
      rcases findNextWordBoundary_lt text _ hnb with ⟨-, h5⟩
      right; left
      refine ⟨by omega, ?_⟩
      rw [Nat.add_sub_cancel]
      exact h5
    · right; right
      exact hws

/-- Every chunk emitted from a window starting at a word-start position is
idempotently trimmed and, when nonempty, occurs in the text directly after
nothing or after whitespace. -/
theorem emitted_ok {text : List Char} {start e : Nat} (hse : start ≤ e)
    (hel : e ≤ text.length) (hinv : wordStartInv text start)
    {c : List Char}
    (hc : c = trim (slice text start e)
      ∨ c = trim (trimEnd (slice text start e))) :
    trim c = c ∧ (c ≠ [] →
      ∃ pre post, text = pre ++ c ++ post
        ∧ (pre = [] ∨ ∃ a d, pre = a ++ [d] ∧ isTrimWs d = true)) := by
  constructor
  · rcases hc with rfl | rfl <;> exact trim_idem _
  · intro hne
    have hy : ∃ a b, slice text start e = a ++ c ++ b
        ∧ ∀ d ∈ a, isTrimWs d = true := by
      rcases hc with rfl | rfl
      · rcases trim_decomp (slice text start e) with ⟨a, b, hab, haw, -⟩
        exact ⟨a, b, hab, haw⟩
      · rcases trim_decomp (trimEnd (slice text start e)) with
          ⟨a, b, hab, haw, -⟩
        rcases trimEnd_decomp (slice text start e) with ⟨b2, hb2, -⟩
        have h3 : slice text start e
            = (a ++ trim (trimEnd (slice text start e)) ++ b) ++ b2 :=
          hb2.trans (congrArg (fun t => t ++ b2) hab)
        exact ⟨a, b ++ b2, h3.trans (by simp only [List.append_assoc]), haw⟩
    rcases hy with ⟨a, b, hab, haw⟩
    have htext : text = (text.take start ++ a) ++ c ++ (b ++ text.drop e) := by
      conv_lhs => rw [slice_decomp text hse hel]
      rw [hab]
      simp [List.append_assoc]
    refine ⟨text.take start ++ a, b ++ text.drop e, htext, ?_⟩
    rcases List.eq_nil_or_concat a with ha | ⟨a0, d, ha⟩
    · subst ha
      have hslice_ne : slice text start e ≠ [] := by
        rw [hab]
        simp [hne]
      have hstart_lt : start < text.length := by
        by_contra hge
        have hdrop : text.drop start = [] := List.drop_eq_nil_of_le (by omega)
        have : slice text start e = [] := by
          rw [slice, hdrop, List.take_nil]
        exact hslice_ne this
      rcases hinv with h0 | ⟨h1, h2⟩ | h3
      · left
        rw [h0]
        simp
      · right
        have hd : text.getD (start - 1) ' ' = text.getD (start - 1) '\x00' := by
          rw [List.getD_eq_getElem?_getD, List.getD_eq_getElem?_getD,
            List.getElem?_eq_getElem (by omega : start - 1 < text.length)]
          rfl
        refine ⟨text.take (start - 1), text.getD (start - 1) ' ', ?_,
          isTrimWs_of_isBoundaryWs (by rw [hd]; exact h2)⟩
        simp only [List.append_nil]
        have hs1 : start - 1 + 1 = start := by omega
        conv_lhs => rw [← hs1]
        rw [List.take_succ]
        congr 1
        rw [List.getElem?_eq_getElem (by omega : start - 1 < text.length)]
        rw [List.getD_eq_getElem?_getD,
          List.getElem?_eq_getElem (by omega : start - 1 < text.length)]
        rfl
      · exfalso
        cases hcc : c with
        | nil => exact hne hcc
        | cons c0 ct =>
          have hhead : (slice text start e).getD 0 '\x00' = c0 := by
            rw [hab, hcc]
            rfl
          rw [slice_getD_zero text '\x00' hslice_ne] at hhead
          have hc0tw : isTrimWs c0 = false := by
            rcases hc with hcv | hcv <;>
              exact trim_head_not_ws (hcc ▸ hcv.symm)
          have hc0tw2 : isTrimWs c0 = true :=
            isTrimWs_of_isBoundaryWs (hhead ▸ h3)
          rw [hc0tw] at hc0tw2
          exact Bool.noConfusion hc0tw2
    · right
      refine ⟨text.take start ++ a0, d, ?_, haw d (by rw [ha]; simp)⟩
      rw [ha, List.concat_eq_append]
      exact (List.append_assoc _ _ _).symm

/-- A continuing iteration of the boundary-aware loop runs inside the text,
strictly advances the scan position, lands it on a word start, and emits
only trims of window slices. -/
theorem chunkStep_go_facts {text : List Char} {cs co start next : Nat}
    {emit : List (List Char)}
    (h : chunkStep text cs co start = .go emit next) :
    start < text.length ∧ start < next ∧ wordStartInv text next
    ∧ ∀ c ∈ emit, ∃ e, start ≤ e ∧ e ≤ text.length
        ∧ (c = trim (slice text start e)
          ∨ c = trim (trimEnd (slice text start e))) := by
  simp only [chunkStep] at h
  split at h
  · rename_i hlen
    refine ⟨hlen, ?_⟩
    split at h
    · exact ChunkStep.noConfusion h
    · rename_i hlt
      have hideal : min (start + cs) text.length ≤ text.length :=
        min_le_right _ _
      have hidge : start ≤ min (start + cs) text.length := by
        have := Nat.not_le.mp hlt
        omega
      split at h
      · rename_i sp hsp
        split at h
        · rename_i hsppos
          cases h
          rcases splitPointOf_spec hsp with ⟨hsplt, hspws⟩
          have hchlen : (slice text start (min (start + cs)
              text.length)).length = min (start + cs) text.length - start := by
            rw [slice, List.length_take, List.length_drop]
            omega
          rw [hchlen] at hsplt
          have hws : isBoundaryWs (text.getD (start + sp) '\x00') = true := by
            rw [getD_slice text hsplt] at hspws
            exact hspws
          refine ⟨nextStartOf_gt (by omega), nextStartOf_inv hws, ?_⟩
          intro c hc
          refine ⟨start + sp, by omega, by omega, Or.inr ?_⟩
          split at hc
          · rcases List.mem_singleton.mp hc with rfl
            rfl
          · exact absurd hc (List.not_mem_nil c)
        · rename_i hsppos
          split at h
          · rename_i hnb
            cases h
            rcases findNextWordBoundary_lt text _ hnb with ⟨hnb1, hnb2⟩
            refine ⟨by omega, ?_, ?_⟩
            · rw [wordStartInv]
              right; left
              refine ⟨by omega, ?_⟩
              rw [Nat.add_sub_cancel]
              exact hnb2
            · intro c hc
              refine ⟨findNextWordBoundary text (min (start + cs)
                text.length), by omega, by omega, Or.inr ?_⟩
              split at hc
              · rcases List.mem_singleton.mp hc with rfl
                rfl
              · exact absurd hc (List.not_mem_nil c)
          · exact ChunkStep.noConfusion h
      · rename_i hsp
        split at h
        · rename_i hnb
          cases h
          rcases findNextWordBoundary_lt text _ hnb with ⟨hnb1, hnb2⟩
          refine ⟨by omega, ?_, ?_⟩
          · rw [wordStartInv]
            right; left
            refine ⟨by omega, ?_⟩
            rw [Nat.add_sub_cancel]
            exact hnb2
          · intro c hc
            refine ⟨findNextWordBoundary text (min (start + cs)
              text.length), by omega, by omega, Or.inr ?_⟩
            split at hc
            · rcases List.mem_singleton.mp hc with rfl
              rfl
            · exact absurd hc (List.not_mem_nil c)
        · exact ChunkStep.noConfusion h
  · exact ChunkStep.noConfusion h

/-- A stopping iteration of the boundary-aware loop emits only trims of
window slices. -/
theorem chunkStep_stop_facts {text : List Char} {cs co start : Nat}
    {emit : List (List Char)}
    (h : chunkStep text cs co start = .stop emit) :
    ∀ c ∈ emit, ∃ e, start ≤ e ∧ e ≤ text.length
      ∧ (c = trim (slice text start e)
        ∨ c = trim (trimEnd (slice text start e))) := by
  simp only [chunkStep] at h
  split at h
  · rename_i hlen
    have hideal : min (start + cs) text.length ≤ text.length :=
      min_le_right _ _
    have hidge : start ≤ min (start + cs) text.length := by omega
    split at h
    · cases h
      intro c hc
      rcases List.mem_singleton.mp hc with rfl
      exact ⟨min (start + cs) text.length, hidge, hideal, Or.inl rfl⟩
    · split at h
      · rename_i sp hsp
        split at h
        · exact ChunkStep.noConfusion h
        · split at h
          · exact ChunkStep.noConfusion h
          · cases h
            intro c hc
            rcases List.mem_singleton.mp hc with rfl
            exact ⟨min (start + cs) text.length, hidge, hideal, Or.inl rfl⟩
      · split at h
        · exact ChunkStep.noConfusion h
        · cases h
          intro c hc
          rcases List.mem_singleton.mp hc with rfl
          exact ⟨min (start + cs) text.length, hidge, hideal, Or.inl rfl⟩
  · cases h
    intro c hc
    exact absurd hc (List.not_mem_nil c)

/-- Soundness of the boundary-aware loop: starting from a word-start
position, every chunk it returns is idempotently trimmed and, when
nonempty, occurs in the text at a word start. -/
theorem chunkTextAux_sound (text : List Char) :
    ∀ (fuel start : Nat) (res : List (List Char)),
      wordStartInv text start →
      chunkTextAux text 1000 200 fuel start = some res →
      ∀ c ∈ res, trim c = c ∧ (c ≠ [] →
        ∃ pre post, text = pre ++ c ++ post
          ∧ (pre = [] ∨ ∃ a d, pre = a ++ [d] ∧ isTrimWs d = true)) := by
  intro fuel
  induction fuel with
  | zero =>
    intro start res hinv h
    exact absurd h (by rw [chunkTextAux]; simp)
  | succ n ih =>
    intro start res hinv h
    rw [chunkTextAux] at h
    cases hstep : chunkStep text 1000 200 start with
    | stop emit =>
      rw [hstep] at h
      cases h
      intro c hc
      rcases chunkStep_stop_facts hstep c hc with ⟨e, h1, h2, h3⟩
      exact emitted_ok h1 h2 hinv h3
    | go emit next =>
      rw [hstep] at h
      have h2 : (match chunkTextAux text 1000 200 n next with
        | none => none
        | some rest => some (emit ++ rest)) = some res := h
      cases hrec : chunkTextAux text 1000 200 n next with
      | none =>
        rw [hrec] at h2
        exact Option.noConfusion h2
      | some rest =>
        rw [hrec] at h2
        have h3 : some (emit ++ rest) = some res := h2
        cases h3
        intro c hc
        rcases List.mem_append.mp hc with hc1 | hc2
        · rcases chunkStep_go_facts hstep with ⟨-, -, -, hemit⟩
          rcases hemit c hc1 with ⟨e, h1, h2, h3⟩
          exact emitted_ok h1 h2 hinv h3
        · exact ih next rest (chunkStep_go_facts hstep).2.2.1 hrec c hc2

/-- Fuel adequacy of the boundary-aware loop: the scan position strictly
increases each iteration, so `length - start` bounds the remaining
iterations. -/
theorem chunkTextAux_isSome (text : List Char) :
    ∀ (fuel start : Nat), text.length - start < fuel →
      (chunkTextAux text 1000 200 fuel start).isSome := by
  intro fuel
  induction fuel with
  | zero => intro start h; omega
  | succ n ih =>
    intro start h
    rw [chunkTextAux]
    cases hstep : chunkStep text 1000 200 start with
    | stop emit => simp
    | go emit next =>
      rcases chunkStep_go_facts hstep with ⟨hs1, hs2, -, -⟩
      have hrec := ih next (by omega)
      cases hres : chunkTextAux text 1000 200 n next with
      | none => rw [hres] at hrec; exact Bool.noConfusion hrec
      | some rest =>
        show (match chunkTextAux text 1000 200 n next with
          | none => none
          | some r => some (emit ++ r)).isSome = true
        rw [hres]
        rfl

/-- A continuing iteration of the simpler loop runs inside the text and
strictly advances the scan position (with the default parameters the
advance is at least 302). -/
theorem chunkStepSimple_go_facts {text : List Char} {start next : Nat}
    {emit : List (List Char)}
    (h : chunkStepSimple text 1000 200 start = .go emit next) :
    start < text.length ∧ start < next := by
  simp only [chunkStepSimple] at h
  split at h
  · rename_i hlen
    refine ⟨hlen, ?_⟩
    split at h
    · split at h
      · rename_i sp hsp
        split at h
        · rename_i hsp2
          cases h
          omega
        · cases h
          omega
      · cases h
        omega
    · exact ChunkStep.noConfusion h
  · exact ChunkStep.noConfusion h

/-- Fuel adequacy of the simpler loop. -/
theorem chunkTextSimpleAux_isSome (text : List Char) :
    ∀ (fuel start : Nat), text.length - start < fuel →
      (chunkTextSimpleAux text 1000 200 fuel start).isSome := by
  intro fuel
  induction fuel with
  | zero => intro start h; omega
  | succ n ih =>
    intro start h
    rw [chunkTextSimpleAux]
    cases hstep : chunkStepSimple text 1000 200 start with
    | stop emit => simp
    | go emit next =>
      rcases chunkStepSimple_go_facts hstep with ⟨hs1, hs2⟩
      have hrec := ih next (by omega)
      cases hres : chunkTextSimpleAux text 1000 200 n next with
      | none => rw [hres] at hrec; exact Bool.noConfusion hrec
      | some rest =>
        show (match chunkTextSimpleAux text 1000 200 n next with
          | none => none
          | some r => some (emit ++ r)).isSome = true
        rw [hres]
        rfl

/-- C10: both `chunkText` variants terminate on every finite input with the
default parameters `chunkSize = 1000`, `overlap = 200`: each loop iteration
strictly increases the scan position or breaks, so fuel `length + 1`
suffices and the loops produce a finite chunk list. -/
theorem C10_chunkText_terminates (text : List Char) :
    (chunkTextAux text 1000 200 (text.length + 1) 0).isSome
    ∧ (chunkTextSimpleAux text 1000 200 (text.length + 1) 0).isSome :=
  ⟨chunkTextAux_isSome text (text.length + 1) 0 (by omega),
   chunkTextSimpleAux_isSome text (text.length + 1) 0 (by omega)⟩

/-- C9 (amended): every chunk produced by the boundary-aware `chunkText`
with the default parameters is non-empty and idempotently trimmed, and no
chunk ever begins mid-word: each one occurs in the text immediately after
whitespace or at the very start.  (A chunk boundary can still fall inside a
word at the chunk's end — see the counterexample.) -/
theorem C9_chunkText_spec (text : List Char) :
    ∀ c ∈ chunkText text 1000 200,
      c ≠ [] ∧ trim c = c
      ∧ ∃ pre post, text = pre ++ c ++ post
          ∧ (pre = [] ∨ ∃ a d, pre = a ++ [d] ∧ isTrimWs d = true) := by
  intro c hc
  rw [chunkText] at hc
  rcases List.mem_filter.mp hc with ⟨hmem, hlen⟩
  have hne : c ≠ [] := by
    intro h0
    rw [h0] at hlen
    simp at hlen
  have hsome := chunkTextAux_isSome text (text.length + 1) 0 (by omega)
  cases hres : chunkTextAux text 1000 200 (text.length + 1) 0 with
  | none =>
    rw [hres] at hsome
    exact Bool.noConfusion hsome
  | some res =>
    rw [hres] at hmem
    have hc2 : c ∈ res := by simpa using hmem
    have hfact := chunkTextAux_sound text (text.length + 1) 0 res
      (Or.inl rfl) hres c hc2
    exact ⟨hne, hfact.1, hfact.2 hne⟩

/-- Witness for C9 at a concrete short text: the single chunk is the
trimmed text itself. -/
theorem C9_chunkText_witness :
    trim "hi there".toList = "hi there".toList :=
  (C9_chunkText_spec "hi there".toList "hi there".toList (by decide)).2.1

/-- `getD` offset past an appended prefix. -/
theorem getD_append_off (l₁ l₂ : List Char) (i : Nat) (d : Char) :
    (l₁ ++ l₂).getD (l₁.length + i) d = l₂.getD i d := by
  rw [List.getD_eq_getElem?_getD, List.getD_eq_getElem?_getD,
    List.getElem?_append_right (by omega)]
  congr 2
  omega

/-- `getD` inside an appended prefix. -/
theorem getD_append_in (l₁ l₂ : List Char) {i : Nat} (h : i < l₁.length)
    (d : Char) : (l₁ ++ l₂).getD i d = l₁.getD i d := by
  rw [List.getD_eq_getElem?_getD, List.getD_eq_getElem?_getD,
    List.getElem?_append, if_pos h]

/-- The text of the C9 counterexample: a single space followed by 999
letters filling the first window, then two more letters. -/
def cexText : List Char :=
  (' ' :: List.replicate 999 'a') ++ ['b', 'b']

/-- `lastIdxOf` finds nothing in a list free of the character. -/
theorem lastIdxOf_eq_none {c : Char} :
    ∀ {l : List Char}, (∀ x ∈ l, x ≠ c) → lastIdxOf l c = none := by
  intro l
  induction l with
  | nil => intro h; rfl
  | cons x rest ih =>
    intro h
    have hx : ¬ x = c := h x (by simp)
    simp [lastIdxOf, ih (fun y hy => h y (by simp [hy])), hx]

/-- The descending scan finds nothing over non-whitespace positions. -/
theorem findLastWBGo_eq_none {str : List Char} :
    ∀ {n : Nat},
      (∀ i, 1 ≤ i → i ≤ n → isBoundaryWs (str.getD i '\x00') = false) →
      findLastWBGo str n = none := by
  intro n
  induction n with
  | zero => intro h; rfl
  | succ m ih =>
    intro h
    rw [findLastWBGo, if_neg (by rw [h (m + 1) (by omega) le_rfl]; simp)]
    exact ih (fun i h1 h2 => h i h1 (by omega))

/-- `dropWhile` leaves a replicate of a failing character untouched. -/
theorem dropWhile_replicate {p : Char → Bool} {a : Char} (h : p a = false)
    (n : Nat) :
    List.dropWhile p (List.replicate n a) = List.replicate n a := by
  cases n with
  | zero => rfl
  | succ m =>
    rw [List.replicate_succ, List.dropWhile_cons]
    simp [h]

/-- Evaluation of one chunking iteration when no split point exists and no
word boundary follows the window: the loop takes the window as the last
chunk and drops the rest of the text. -/
theorem chunkStep_eval_stop_noSplit (text : List Char) (cs co start : Nat)
    (h1 : start < text.length)
    (h2 : min (start + cs) text.length < text.length)
    (h3 : splitPointOf (slice text start (min (start + cs) text.length)) cs
      = none)
    (h4 : ¬ findNextWordBoundary text (min (start + cs) text.length)
      < text.length) :
    chunkStep text cs co start
      = .stop [trim (slice text start (min (start + cs) text.length))] := by
  simp only [chunkStep]
  rw [if_pos h1, if_neg (by omega), h3, if_neg h4]

/-- The first window of the counterexample text. -/
theorem cex_window : slice cexText 0 1000 = ' ' :: List.replicate 999 'a' := by
  rw [slice, List.drop_zero, Nat.sub_zero, cexText,
    show (1000 : Nat) = (' ' :: List.replicate 999 'a').length from by simp,
    List.take_left]

/-- The counterexample text is 1002 characters long. -/
theorem cex_length : cexText.length = 1002 := by
  simp [cexText]

/-- Positions 1 … 999 of the first window all hold the letter `a`. -/
theorem cex_window_getD {i : Nat} (h1 : 1 ≤ i) (h2 : i ≤ 999) :
    (' ' :: List.replicate 999 'a').getD i '\x00' = 'a' := by
  cases i with
  | zero => omega
  | succ j =>
    show (List.replicate 999 'a').getD j '\x00' = 'a'
    rw [List.getD_eq_getElem?_getD, List.getElem?_replicate,
      if_pos (by omega : j < 999)]
    rfl

/-- No split point exists in the counterexample's first window: it has no
period, no newline, and its only whitespace sits at position 0, which the
word-boundary search skips. -/
theorem cex_splitPoint :
    splitPointOf (' ' :: List.replicate 999 'a') 1000 = none := by
  have hmem : ∀ x ∈ (' ' :: List.replicate 999 'a'), x = ' ' ∨ x = 'a' := by
    intro x hx
    rcases List.mem_cons.mp hx with rfl | hx2
    · exact Or.inl rfl
    · exact Or.inr (List.eq_of_mem_replicate hx2)
  have hp : lastIdxOf (' ' :: List.replicate 999 'a') '.' = none := by
    refine lastIdxOf_eq_none (fun x hx => ?_)
    rcases hmem x hx with rfl | rfl <;> decide
  have hn : lastIdxOf (' ' :: List.replicate 999 'a') '\n' = none := by
    refine lastIdxOf_eq_none (fun x hx => ?_)
    rcases hmem x hx with rfl | rfl <;> decide
  have hsent : sentenceSplitPoint (' ' :: List.replicate 999 'a') 1000
      = none := by
    rw [sentenceSplitPoint, hp]
  have hline : lineSplitPoint (' ' :: List.replicate 999 'a') 1000
      = none := by
    rw [lineSplitPoint, hsent, hn]
  have hwb : findLastWordBoundary (' ' :: List.replicate 999 'a')
      ((' ' :: List.replicate 999 'a').length - 1) = none := by
    rw [findLastWordBoundary]
    refine findLastWBGo_eq_none (fun i hi1 hi2 => ?_)
    have hle : i ≤ 999 := by
      have : (' ' :: List.replicate 999 'a').length = 1000 := by simp
      omega
    rw [cex_window_getD hi1 hle]
    rfl
  rw [splitPointOf, hline, hwb]
  rfl

/-- After the first window the counterexample text holds only letters, so
the forward boundary search runs to the end. -/
theorem cex_fnwb : findNextWordBoundary cexText 1000 = cexText.length := by
  have hdrop : cexText.drop 1000 = ['b', 'b'] := by
    rw [cexText,
      show (1000 : Nat) = (' ' :: List.replicate 999 'a').length from by simp,
      List.drop_left]
  rw [findNextWordBoundary, hdrop]
  rfl

/-- The trimmed first window of the counterexample. -/
theorem cex_trim : trim (' ' :: List.replicate 999 'a')
    = List.replicate 999 'a' := by
  have h1 : trimStart (' ' :: List.replicate 999 'a')
      = List.replicate 999 'a' := by
    rw [trimStart, List.dropWhile_cons]
    rw [if_pos (by decide : isTrimWs ' ' = true)]
    exact dropWhile_replicate (by decide) 999
  have h2 : trimEnd (List.replicate 999 'a') = List.replicate 999 'a' := by
    rw [trimEnd, List.reverse_replicate, dropWhile_replicate (by decide) 999,
      List.reverse_replicate]
  rw [trim, h1, h2]

/-- On the counterexample text the boundary-aware chunker emits exactly the
trimmed first window. -/
theorem cex_chunkText : chunkText cexText 1000 200
    = [List.replicate 999 'a'] := by
  have hmin : min (0 + 1000) cexText.length = 1000 := by
    rw [cex_length]
    decide
  have hstep : chunkStep cexText 1000 200 0
      = .stop [List.replicate 999 'a'] := by
    rw [chunkStep_eval_stop_noSplit cexText 1000 200 0
      (by rw [cex_length]; omega) (by rw [hmin, cex_length]; omega)
      (by rw [hmin, cex_window]; exact cex_splitPoint)
      (by rw [hmin, cex_fnwb]; omega)]
    rw [hmin, cex_window, cex_trim]
  have haux : chunkTextAux cexText 1000 200 (cexText.length + 1) 0
      = some [List.replicate 999 'a'] := by
    rw [cex_length]
    show chunkTextAux cexText 1000 200 (1002 + 1) 0
      = some [List.replicate 999 'a']
    rw [chunkTextAux, hstep]
  rw [chunkText, haux]
  rfl


/-- C9 counterexample: on `cexText` the boundary-aware chunker (default
parameters) emits the single chunk `a^999` — and drops the tail — although
the first window contains whitespace (its first character).  That chunk
occurs in the text only at position 1, where the character following it is
the non-whitespace `b`: the chunk boundary at its end falls inside the
word `a^999 b^2`, contradicting the claim. -/
theorem C9_chunkText_counterexample :
    chunkText cexText 1000 200 = [List.replicate 999 'a']
    ∧ isTrimWs (cexText.getD 0 'x') = true
    ∧ (∀ pre post, cexText = pre ++ List.replicate 999 'a' ++ post →
        post ≠ [] ∧ isTrimWs (post.getD 0 'x') = false) := by
  refine ⟨cex_chunkText, by decide, ?_⟩
  intro pre post heq
  have hlen : pre.length + (999 + post.length) = 1002 := by
    have h0 := congrArg List.length heq
    simp only [cexText, List.length_append, List.length_cons,
      List.length_nil, List.length_replicate] at h0
    omega
  have hmid : ∀ i, i < 999 → cexText.getD (pre.length + i) 'x' = 'a' := by
    intro i hi
    rw [heq, List.append_assoc, getD_append_off,
      getD_append_in _ _ (by simpa using hi), List.getD_eq_getElem?_getD,
      List.getElem?_replicate, if_pos hi]
    rfl
  have h0 : cexText.getD 0 'x' = ' ' := rfl
  have hplen0 : (' ' :: List.replicate 999 'a').length = 1000 := by simp
  have h1000 : cexText.getD 1000 'x' = 'b' := by
    rw [cexText, show (1000 : Nat) = (' ' :: List.replicate 999 'a').length
      + 0 from by simp, getD_append_off]
    rfl
  have h1001 : cexText.getD 1001 'x' = 'b' := by
    rw [cexText, show (1001 : Nat) = (' ' :: List.replicate 999 'a').length
      + 1 from by simp, getD_append_off]
    rfl
  have hcase : pre.length = 0 ∨ pre.length = 1 ∨ pre.length = 2
      ∨ pre.length = 3 := by omega
  rcases hcase with hn | hn | hn | hn
  · exfalso
    have hx := hmid 0 (by omega)
    rw [hn] at hx
    exact absurd (h0.symm.trans hx) (by decide)
  · have hpost : post.length = 2 := by omega
    refine ⟨by intro hp; rw [hp] at hpost; simp at hpost, ?_⟩
    have hx := getD_append_off (pre ++ List.replicate 999 'a') post 0 'x'
    rw [show (pre ++ List.replicate 999 'a').length = 1000 from by
      simp [hn], ← heq] at hx
    rw [← hx, h1000]
    rfl
  · exfalso
    have hx := hmid 998 (by omega)
    rw [hn, show (2 + 998 : Nat) = 1000 from rfl] at hx
    exact absurd (h1000.symm.trans hx) (by decide)
  · exfalso
    have hx := hmid 998 (by omega)
    rw [hn, show (3 + 998 : Nat) = 1001 from rfl] at hx
    exact absurd (h1001.symm.trans hx) (by decide)

set_option maxRecDepth 10000 in
/-- Witness for C8 at a concrete 1536-dimensional result. -/
theorem C8_generateEmbedding_witness :
    (List.replicate 1536 (0 : ℚ)).length = 1536 :=
  (C8_generateEmbedding_spec (some [List.replicate 1536 0])).1
    (List.replicate 1536 0) rfl

end Notewise
